import Mathlib

/-!
Verification development for the pyLapse repository.

This file shallowly embeds the parts of the code base that the verified
properties speak about:

* `src/pyLapse/img_seq/lapsetime.py` — `find_nearest`, `find_nearest_dt`,
  `dayslice`, `get_fire_times`, `cron_image_filter`;
* `src/pyLapse/img_seq/image.py` — `ImageSet.index_files`,
  `ImageSet.filter_index`, `imagecount`;
* `src/pyLapse/img_seq/utils.py` — `_StackTracedMixin._wrapper` and the
  result-collection loop of `ParallelExecutor._run` (error path);
* `src/pyLapse/web/tasks.py` — the `TaskManager` task state machine.

Modelling conventions:

* timestamps are civil time expressed as whole seconds (`Int`); the calendar
  day of an instant `t` is `t.ediv 86400`, the hour and minute are the usual
  quotients of `t.emod 86400`;
* Python's `timedelta.seconds` attribute of a whole-second delta `d` is the
  seconds field of the normalized representation, i.e. `d.emod 86400`
  (non-negative even for negative deltas — this normalization is load-bearing
  for `find_nearest_dt`);
* file paths are an abstract linearly ordered type (strings in the source);
  insertion-ordered Python dicts are modelled as association lists, and
  Python's stable `sorted` as `List.insertionSort`;
* an APScheduler cron trigger is modelled by the one capability the code
  uses, `get_next_fire_time(previous, now)` with `now = previous + ε`, i.e. a
  function from an instant to the next strictly-later fire instant.
-/

set_option maxRecDepth 8000

namespace PyLapse

/-! ## Embedding of src/pyLapse/img_seq/lapsetime.py -/

/-- Type alias from lapsetime.py line 55: `{day_str: {filepath: datetime}}`.
Day keys are day indices (ISO date strings in the source, which sort
chronologically exactly like the indices); the inner dict is an
insertion-ordered association list from path to timestamp. -/
abbrev ImageIndex (α : Type) := List (Nat × List (α × Int))

/-- Hour component of a civil timestamp in seconds (`datetime.hour`). -/
def hourOfTs (t : Int) : Int := (t.emod 86400).ediv 3600

/-- Minute component of a civil timestamp in seconds (`datetime.minute`). -/
def minuteOfTs (t : Int) : Int := ((t.emod 86400).emod 3600).ediv 60

/-- Python's `min(iterable, key=...)` given a first element `best` and the
remaining elements: scans left to right and replaces the current best only
on a strictly smaller key, so the first minimal element wins. -/
def pyMinByAux {β : Type} (key : β → Int) : β → List β → β
  | best, [] => best
  | best, x :: xs => pyMinByAux key (if key x < key best then x else best) xs

/-- Python's `enumerate` starting at `n`. -/
def enumFrom (n : Nat) : List Int → List (Nat × Int)
  | [] => []
  | x :: xs => (n, x) :: enumFrom (n + 1) xs

/-- Embedding of `find_nearest` (lapsetime.py lines 142-154):
`idx, item = min(enumerate(array), key=lambda x: abs(x[1] - value))`,
returning `(item, idx)` when `abs(value - item) <= fuzzyness`. -/
def find_nearest (array : List Int) (value : Int) (fuzzyness : Int) :
    Option (Int × Nat) :=
  match array with
  | [] => none
  | a :: as =>
    let best := pyMinByAux (fun q => |q.2 - value|) (0, a) (enumFrom 1 as)
    if |value - best.2| ≤ fuzzyness then some (best.2, best.1) else none

/-- Embedding of `find_nearest_dt` (lapsetime.py lines 157-166).  The filter
is `(x - target_dt).seconds <= fuzzy * 60`: the `seconds` attribute of the
normalized timedelta, i.e. `(x - target_dt).emod 86400`, not the absolute
delta.  The minimum is taken with `key=lambda x: x - target_dt` (the signed
delta), `min` keeping the first minimal candidate. -/
def find_nearest_dt (target_dt : Int) (dtlist : List Int) (fuzzy : Int) :
    Option Int :=
  match dtlist.filter (fun x => (x - target_dt).emod 86400 ≤ fuzzy * 60) with
  | [] => none
  | c :: cs => some (pyMinByAux (fun x => x - target_dt) c cs)

/-- Comparison `(filename, timestamp)` used by `sorted(sorted_files.items())`
in `dayslice`: Python tuple order on the dict items. -/
def pathTsLe {α : Type} [LinearOrder α] (a b : α × Int) : Prop :=
  a.1 < b.1 ∨ (a.1 = b.1 ∧ a.2 ≤ b.2)

instance pathTsLeDec {α : Type} [LinearOrder α] : DecidableRel (pathTsLe (α := α)) :=
  fun a b => inferInstanceAs (Decidable (a.1 < b.1 ∨ (a.1 = b.1 ∧ a.2 ≤ b.2)))

/-- Comparison `key=lambda x: (x[1], x[0])` used by both selectors to sort a
day's dict items by `(timestamp, filename)`. -/
def tsPathLe {α : Type} [LinearOrder α] (a b : α × Int) : Prop :=
  a.2 < b.2 ∨ (a.2 = b.2 ∧ a.1 ≤ b.1)

instance tsPathLeDec {α : Type} [LinearOrder α] : DecidableRel (tsPathLe (α := α)) :=
  fun a b => inferInstanceAs (Decidable (a.2 < b.2 ∨ (a.2 = b.2 ∧ a.1 ≤ b.1)))

/-- Comparison used by `sorted(imageindex.items())` in `cron_image_filter`:
the day key decides (day keys of a dict are distinct). -/
def dayLe {α : Type} (a b : Nat × List (α × Int)) : Prop := a.1 ≤ b.1

instance dayLeDec {α : Type} : DecidableRel (dayLe (α := α)) :=
  fun a b => inferInstanceAs (Decidable (a.1 ≤ b.1))

/-- The per-hour collection loop of `dayslice` (lines 103-106): iterate the
day's files sorted by `(filename, timestamp)` — the net iteration order of
`sorted(dict(sorted(files.items(), key=(ts, path))).items())`, since dict
keys are distinct — and keep those whose timestamp hour equals the target
hour. -/
def dayHourFiles {α : Type} [LinearOrder α] (files : List (α × Int))
    (target_hour : Int) : List (α × Int) :=
  (List.insertionSort pathTsLe files).filter
    (fun pt => decide (hourOfTs pt.2 = target_hour))

/-- The body of the `for day, files in fileindex.items()` loop of `dayslice`
(lines 94-125) for one day, given the already-sorted hour and minute lists. -/
def daysliceDay {α : Type} [LinearOrder α] (files : List (α × Int))
    (hourlist minutelist : List Int) (fuzzy : Int) : List α :=
  hourlist.foldl
    (fun acc target_hour =>
      let hourFiles := dayHourFiles files target_hour
      let hour_minutes := hourFiles.map (fun pt => minuteOfTs pt.2)
      let hour_filenames := hourFiles.map (fun pt => pt.1)
      if hour_minutes.isEmpty then acc
      else
        acc ++ minutelist.foldl
          (fun acc2 target_minute =>
            match find_nearest hour_minutes target_minute fuzzy with
            | some mi => acc2 ++ ((hour_filenames.get? mi.2).elim [] (fun f => [f]))
            | none => acc2)
          [])
    []

/-- Result of a `dayslice` call together with the final state of its
arguments.  `hourlist.sort()` and `minutelist.sort()` sort the caller's
list objects in place; `hourlist = list(range(0, 24))` (on `None`) and
`minutelist = [0]` (on an empty list) rebind the local name instead, leaving
the caller's object untouched.  `fileindex` is only read. -/
structure DaysliceResult (α : Type) where
  result : List α
  hourlistAfter : Option (List Int)
  minutelistAfter : List Int
  fileindexAfter : ImageIndex α

/-- Embedding of `dayslice` (lapsetime.py lines 59-128), including the final
state of the caller-visible arguments. -/
def dayslice_full {α : Type} [LinearOrder α] (fileindex : ImageIndex α)
    (hourlist : Option (List Int)) (minutelist : List Int) (fuzzy : Int) :
    DaysliceResult α :=
  let hl := match hourlist with
    | none => (List.range 24).map (fun n => (n : Int))
    | some l => l
  let ml := if minutelist.isEmpty then [0] else minutelist
  let hlSorted := List.insertionSort (· ≤ ·) hl
  let mlSorted := List.insertionSort (· ≤ ·) ml
  let imageset := fileindex.foldl
    (fun acc dayFiles => acc ++ daysliceDay dayFiles.2 hlSorted mlSorted fuzzy) []
  { result := List.insertionSort (· ≤ ·) imageset
    hourlistAfter := hourlist.map (fun _ => hlSorted)
    minutelistAfter := if minutelist.isEmpty then minutelist else mlSorted
    fileindexAfter := fileindex }

/-- The return value of `dayslice`. -/
def dayslice {α : Type} [LinearOrder α] (fileindex : ImageIndex α)
    (hourlist : Option (List Int)) (minutelist : List Int) (fuzzy : Int) :
    List α :=
  (dayslice_full fileindex hourlist minutelist fuzzy).result

/-- The loop of `get_fire_times` (lapsetime.py lines 181-191), with explicit
fuel bounding the number of iterations (the source loop runs once per fire
instant of the day plus one overflow; any fuel at least that large gives the
exact same list).  `trigger` is `get_next_fire_time(last_fire, last_fire+ε)`:
the next fire instant strictly after its argument. -/
def get_fire_times_aux (trigger : Int → Int) (dayIdx : Nat) :
    Nat → Int → Int → List Int
  | 0, _, _ => []
  | fuel + 1, last_fire, cur_day =>
    if cur_day.ediv 86400 = (dayIdx : Int) then
      let next_fire := trigger last_fire
      next_fire :: get_fire_times_aux trigger dayIdx fuel next_fire next_fire
    else []

/-- Embedding of `get_fire_times` (lapsetime.py lines 174-192): starting from
`last_fire = day - ε` and `cur_day = day` (midnight of the given day), append
`trigger last_fire` while `cur_day` still lies on the day — so the first
instant that rolls over to the next day is still appended. -/
def get_fire_times (trigger : Int → Int) (dayIdx : Nat) : List Int :=
  get_fire_times_aux trigger dayIdx 2000 ((dayIdx : Int) * 86400 - 1)
    ((dayIdx : Int) * 86400)

/-- Lookup in `reverse_day_set = {v: k for k, v in day_set.items()}`: for a
duplicated timestamp the comprehension keeps the last pair, so the lookup is
the first match in the reversed day list. -/
def reverseDaySetGet {α : Type} [LinearOrder α] (day_set : List (α × Int))
    (key : Int) : List α :=
  match day_set.reverse.find? (fun pt => decide (pt.2 = key)) with
  | some pt => [pt.1]
  | none => []

/-- Embedding of `cron_image_filter` (lapsetime.py lines 195-225). -/
def cron_image_filter {α : Type} [LinearOrder α] (imageindex : ImageIndex α)
    (trigger : Int → Int) (fuzzy : Int) : List α :=
  (List.insertionSort dayLe imageindex).foldl
    (fun images dayEntry =>
      let day : Nat := dayEntry.1
      let dt_day : Int := (day : Int) * 86400
      let next_day := trigger dt_day
      if next_day.ediv 86400 = dt_day.ediv 86400 then
        let fire_times := get_fire_times trigger day
        let day_set := List.insertionSort tsPathLe dayEntry.2
        let day_timestamps := day_set.map (fun pt => pt.2)
        let time_keys := fire_times.map
          (fun ft => find_nearest_dt ft day_timestamps fuzzy)
        time_keys.foldl
          (fun imgs k =>
            match k with
            | some key => imgs ++ reverseDaySetGet day_set key
            | none => imgs)
          images
      else images)
    []

/-! ## Embedding of src/pyLapse/img_seq/image.py  (ImageSet indexing) -/

/-- Named groups captured by a filename pattern such as `_DEFAULT_FILENAME_RE`
(image.py lines 436-439): year, month, day, hour, minute and an optional
seconds group (`none` models an absent or empty `seconds` capture, which the
source detects with `if not match.group("seconds")`). -/
structure MatchGroups where
  year : Nat
  month : Nat
  day : Nat
  hour : Nat
  minute : Nat
  seconds : Option Nat
deriving DecidableEq, Repr

/-- A `datetime.datetime` value as built by `datetime(*dateargs)` in
`index_files`. -/
structure PyDatetime where
  year : Nat
  month : Nat
  day : Nat
  hour : Nat
  minute : Nat
  second : Nat
deriving DecidableEq, Repr

/-- Lines 526-530 of image.py: the parsed groups in order, with
`dateargs[5] = "00"` when the seconds group is empty, fed to `datetime`. -/
def toDatetime (g : MatchGroups) : PyDatetime :=
  { year := g.year, month := g.month, day := g.day, hour := g.hour,
    minute := g.minute,
    second := match g.seconds with | none => 0 | some s => s }

/-- Line 531: `day = timestamp.strftime("%Y-%m-%d")` — the day key is the
calendar date of the file's own timestamp. -/
def dayKeyOf (t : PyDatetime) : Nat × Nat × Nat := (t.year, t.month, t.day)

/-- The nested index `{day_str: {filepath: datetime}}` built by
`ImageSet.index_files`, as insertion-ordered association lists.  Paths are an
abstract type with decidable equality; they stand for the already-normalized
path strings of the source (so `os.path.normpath` is the identity on them). -/
abbrev FileIndex (P : Type) := List ((Nat × Nat × Nat) × List (P × PyDatetime))

/-- Assignment `d[f] = timestamp` on an insertion-ordered dict: overwrite the
existing key in place, otherwise append. -/
def insertDay {P : Type} [DecidableEq P] :
    List (P × PyDatetime) → P → PyDatetime → List (P × PyDatetime)
  | [], p, t => [(p, t)]
  | e :: rest, p, t =>
    if e.1 = p then (p, t) :: rest else e :: insertDay rest p t

/-- Lines 533-535 of image.py: `if day not in days: days[day] = {}` followed
by `days[day][f] = timestamp`, on insertion-ordered dicts. -/
def insertIndex {P : Type} [DecidableEq P] :
    FileIndex P → (Nat × Nat × Nat) → P → PyDatetime → FileIndex P
  | [], d, p, t => [(d, [(p, t)])]
  | e :: rest, d, p, t =>
    if e.1 = d then (d, insertDay e.2 p t) :: rest
    else e :: insertIndex rest d p t

/-- The `for i, f in enumerate(files)` loop of `index_files` (lines 518-539),
threading the `days` dict.  A file whose basename does not match the pattern
is skipped; a matching file is inserted under the day key of its parsed
timestamp.  `pattern` models `pattern.match(os.path.basename(f))`. -/
def index_files_from {P : Type} [DecidableEq P]
    (pattern : P → Option MatchGroups) : List P → FileIndex P → FileIndex P
  | [], idx => idx
  | f :: rest, idx =>
    index_files_from pattern rest
      (match pattern f with
       | none => idx
       | some g => insertIndex idx (dayKeyOf (toDatetime g)) f (toDatetime g))

/-- Embedding of `ImageSet.index_files` (image.py lines 503-543), the
returned `days` dict. -/
def index_files {P : Type} [DecidableEq P] (files : List P)
    (pattern : P → Option MatchGroups) : FileIndex P :=
  index_files_from pattern files []

/-- The `self.imagecount` counter of `index_files`: reset to 0, incremented
once per file whose basename matches the pattern. -/
def imagecount {P : Type} : List P → (P → Option MatchGroups) → Nat
  | [], _ => 0
  | f :: rest, pattern =>
    (match pattern f with | none => 0 | some _ => 1) + imagecount rest pattern

/-- Embedding of `ImageSet.filter_index` (image.py lines 589-607): keep, for
each day of the cached index, the entries whose (normalized) path is in
`files`, dropping days that end up empty.  Paths are modelled as canonical
atoms, so the `os.path.normpath` calls are identities. -/
def filter_index {P : Type} [DecidableEq P] (idx : FileIndex P)
    (files : List P) : FileIndex P :=
  idx.filterMap (fun e =>
    let m := e.2.filter (fun pt => decide (pt.1 ∈ files))
    if m.isEmpty then none else some (e.1, m))

/-- Dict lookup `day_files[path]` on the association-list model: the value
of the first entry for the path. -/
def lookupDay {P : Type} [DecidableEq P] (dfs : List (P × PyDatetime))
    (p : P) : Option PyDatetime :=
  match dfs.find? (fun pt => decide (pt.1 = p)) with
  | none => none
  | some pt => some pt.2

/-- Dict lookup `index[day][path]` on the association-list model: the first
entry for the day, then the first entry for the path. -/
def lookupIdx {P : Type} [DecidableEq P] (idx : FileIndex P)
    (d : Nat × Nat × Nat) (p : P) : Option PyDatetime :=
  match idx.find? (fun e => decide (e.1 = d)) with
  | none => none
  | some e => lookupDay e.2 p

/-- The day keys of an index, in insertion order. -/
def dayKeys {P : Type} (idx : FileIndex P) : List (Nat × Nat × Nat) :=
  idx.map (fun e => e.1)

/-- Reference description of what `index_files` stores, used to relate
`filter_index` and `index_files`: a path maps to its parsed timestamp under
the day key of that timestamp, if it occurs in the file list and matches the
pattern. -/
def idealLookup {P : Type} [DecidableEq P] (files : List P)
    (pattern : P → Option MatchGroups) (d : Nat × Nat × Nat) (p : P) :
    Option PyDatetime :=
  if p ∈ files then
    (pattern p).bind (fun g =>
      if dayKeyOf (toDatetime g) = d then some (toDatetime g) else none)
  else none

/-- First-some choice on options, mirroring "an earlier dict write wins the
lookup unless overwritten". -/
def optOr {X : Type} : Option X → Option X → Option X
  | some x, _ => some x
  | none, b => b

/-! ## Embedding of src/pyLapse/img_seq/utils.py (error propagation) and
src/pyLapse/web/tasks.py (TaskManager) -/

/-- A Python exception as far as the traced executors care: its type name and
its message. -/
structure PyExc where
  ty : String
  msg : String
deriving DecidableEq, Repr

/-- The text of `traceback.format_exc()` for an exception: a full stack trace
whose final line is `<ExceptionType>: <message>`, so the original message is
a substring of the formatted text. -/
def format_exc (e : PyExc) : String :=
  (("Traceback (most recent call last):\n" ++ e.ty ++ ": ") ++ e.msg) ++ "\n"

/-- Embedding of `_StackTracedMixin._wrapper` (utils.py lines 108-113): run
the function; on an exception, re-raise an exception of the original type
whose message is the full formatted stack trace
(`raise type(sys.exc_info()[1])(traceback.format_exc()) from None`). -/
def wrapped {A B : Type} (fn : A → Except PyExc B) (a : A) : Except PyExc B :=
  match fn a with
  | .ok b => .ok b
  | .error e => .error { ty := e.ty, msg := format_exc e }

/-- The result-collection loop of `ParallelExecutor._run` (utils.py lines
299-349) over wrapped work items: `future.result()` re-raises the wrapped
worker exception at the call site, aborting the whole run; otherwise every
result is collected. -/
def executor_run {A B : Type} (fn : A → Except PyExc B) :
    List A → Except PyExc (List B)
  | [] => .ok []
  | x :: xs =>
    match wrapped fn x with
    | .error e => .error e
    | .ok b =>
      match executor_run fn xs with
      | .error e => .error e
      | .ok bs => .ok (b :: bs)

/-- Terminal snapshot of a `Task` as left by `TaskManager.create_task._run`
(tasks.py lines 80-92). -/
structure TaskOutcome (R : Type) where
  status : String
  error : Option String
  result : Option R
deriving Repr

/-- Embedding of the `_run` closure of `TaskManager.create_task` around an
executor run: on success `status = "completed"` with the result stored; on an
exception `status = "failed"` and `task.error = traceback.format_exc()` of
the exception caught at the task boundary. -/
def task_run {A B : Type} (fn : A → Except PyExc B) (items : List A) :
    TaskOutcome (List B) :=
  match executor_run fn items with
  | .ok r => { status := "completed", error := none, result := some r }
  | .error e => { status := "failed", error := some (format_exc e), result := none }

/-- Substring by explicit decomposition. -/
def strContains (s sub : String) : Prop := ∃ a b, s = (a ++ sub) ++ b

/-! ## Task state machine with cancellation (claim C1)

Modelled from the spec: `TaskManager.cancel_task` and `CancelledError` are
referenced by `src/pyLapse/web/tests.py` and `src/pyLapse/web/routes/api.py`
but are absent from `src/pyLapse/web/tasks.py` itself.  Spec section 4.6
describes the intended state machine: `pending → running → {completed,
failed, cancelled}` with no transition out of a terminal state; a
cancellation request on a running task makes the progress closure raise a
cancellation signal at the next checkpoint, upon which the task ends with
`status = cancelled`, an empty `result` and no `error` payload. -/

/-- Task status values (tasks.py line 21 plus the `cancelled` status used by
the web routes and tests). -/
inductive TStatus
  | pending
  | running
  | completed
  | failed
  | cancelled
deriving DecidableEq, Repr

/-- Whether a status is terminal (spec 4.6: terminal states have no
transitions out). -/
def terminalStatus : TStatus → Bool
  | .completed => true
  | .failed => true
  | .cancelled => true
  | _ => false

/-- Observable fields of a background task. -/
structure BTask where
  status : TStatus
  cancelRequested : Bool
  result : Option String
  error : Option String
deriving DecidableEq, Repr

/-- Events a task reacts to: its worker thread starting, a progress-callback
checkpoint, the job finishing with a value, the job raising, and an external
cancellation request. -/
inductive TEvent
  | start
  | checkpoint
  | finish (r : String)
  | fail (m : String)
  | cancelReq
deriving DecidableEq, Repr

/-- Modelled from the spec (section 4.6): one transition of the task state
machine.  Terminal states absorb every event; a cancellation request on a
running task sets the cooperative flag; at the next progress checkpoint a
cancel-requested running task moves to `cancelled`, leaving `result` and
`error` untouched; finishing or failing while running produce the other two
terminal states. -/
def taskStep (t : BTask) (ev : TEvent) : BTask :=
  if terminalStatus t.status then t
  else
    match ev with
    | .start => if t.status = .pending then { t with status := .running } else t
    | .cancelReq =>
      if t.status = .running then { t with cancelRequested := true } else t
    | .checkpoint =>
      if t.status = .running ∧ t.cancelRequested then
        { t with status := .cancelled }
      else t
    | .finish r =>
      if t.status = .running then
        { t with status := .completed, result := some r }
      else t
    | .fail m =>
      if t.status = .running then
        { t with status := .failed, error := some m }
      else t

/-- A task's evolution over a sequence of events. -/
def taskRun (t : BTask) (evs : List TEvent) : BTask := evs.foldl taskStep t

/-! ## Concrete instances used to evaluate the embedded code -/

/-- A cron evaluator firing at 10:00:00 and 10:01:00 of day 0 and then not
again until 10:00:00 of day 1. -/
def twoFireTrigger (t : Int) : Int :=
  if t < 36000 then 36000 else if t < 36060 then 36060 else 122400

/-- A cron evaluator firing once per hour on the hour (`CronTrigger(minute="0")`):
the next multiple of 3600 strictly after the argument. -/
def hourlyTrigger (t : Int) : Int := 3600 * (t.ediv 3600 + 1)

/-- An image index holding one image per minute for the whole of day 0; the
file for minute `i` is the path `i` with timestamp `i` minutes past
midnight. -/
def fullDayIndex : ImageIndex Nat :=
  [(0, (List.range 1440).map (fun i => (i, (i : Int) * 60)))]

/-- A transform over `Nat` items that raises `ValueError("boom")` on item 2
and returns the item otherwise. -/
def boomTransform (n : Nat) : Except PyExc Nat :=
  if n = 2 then .error { ty := "ValueError", msg := "boom" } else .ok n

/-- A freshly started task: running, no cancellation requested, empty result
and no error. -/
def runningTask : BTask :=
  { status := .running, cancelRequested := false, result := none, error := none }

/-- The exception raised by `boomTransform`. -/
def boomExc : PyExc := { ty := "ValueError", msg := "boom" }

/-- Capture groups of a filename parsing as 2024-01-15 12:00 with an empty
seconds group. -/
def g0 : MatchGroups :=
  { year := 2024, month := 1, day := 15, hour := 12, minute := 0,
    seconds := none }

/-- Capture groups of a filename parsing as 2024-01-16 08:30:15. -/
def g2 : MatchGroups :=
  { year := 2024, month := 1, day := 16, hour := 8, minute := 30,
    seconds := some 15 }

/-- A filename pattern for the indexing witnesses: path 0 parses as
2024-01-15 12:00 with no seconds group, path 2 as 2024-01-16 08:30:15, and
every other path fails to match. -/
def witnessPattern (p : Nat) : Option MatchGroups :=
  if p = 0 then some g0 else if p = 2 then some g2 else none

/-! ## Helper lemmas -/

/-- A task in a terminal status never changes again, whatever events arrive. -/
theorem taskRun_terminal (t : BTask) (ht : terminalStatus t.status = true) :
    ∀ evs, taskRun t evs = t := by
  intro evs
  induction evs with
  | nil => rfl
  | cons e rest ih =>
    have hstep : taskStep t e = t := by simp [taskStep, ht]
    show List.foldl taskStep (taskStep t e) rest = t
    rw [hstep]
    exact ih

/-- Folding the per-day body of dayslice with an empty hour list changes
nothing: no hour is ever visited. -/
theorem foldl_daysliceDay_nil_hours {α : Type} [LinearOrder α]
    (ml : List Int) (fz : Int) (l : ImageIndex α) :
    ∀ acc : List α,
      List.foldl (fun acc df => acc ++ daysliceDay df.2 [] ml fz) acc l = acc := by
  induction l with
  | nil => intro acc; rfl
  | cons e rest ih =>
    intro acc
    have h : daysliceDay e.2 ([] : List Int) ml fz = [] := rfl
    show List.foldl _ (acc ++ daysliceDay e.2 [] ml fz) rest = acc
    rw [h, List.append_nil]
    exact ih acc

/-- String concatenation is associative. -/
theorem str_append_assoc (a b c : String) : a ++ b ++ c = a ++ (b ++ c) := by
  apply congrArg String.mk
  show (a ++ b).data ++ c.data = a.data ++ (b ++ c).data
  rw [String.data_append, String.data_append, List.append_assoc]

/-! ## Claim C1 -/

/-- C1: for a running BackgroundTask with empty result and no error payload,
a cancellation request followed by the next progress checkpoint puts the
task in the terminal status `cancelled`, with `result` still empty and no
`error` payload; no later event can move it to `completed` (or anywhere
else), and `cancelled` is distinct from `failed`. -/
theorem c1_cancellation (t : BTask) (h : t.status = .running)
    (hr : t.result = none) (he : t.error = none) :
    (taskStep (taskStep t .cancelReq) .checkpoint).status = .cancelled
    ∧ (taskStep (taskStep t .cancelReq) .checkpoint).result = none
    ∧ (taskStep (taskStep t .cancelReq) .checkpoint).error = none
    ∧ (∀ evs,
        (taskRun (taskStep (taskStep t .cancelReq) .checkpoint) evs).status
          = .cancelled)
    ∧ TStatus.cancelled ≠ TStatus.failed
    ∧ TStatus.cancelled ≠ TStatus.completed := by
  have h1 : taskStep t .cancelReq = { t with cancelRequested := true } := by
    simp [taskStep, h, terminalStatus]
  have h2 : taskStep (taskStep t .cancelReq) .checkpoint
      = { t with cancelRequested := true, status := .cancelled } := by
    rw [h1]
    simp [taskStep, h, terminalStatus]
  refine ⟨by rw [h2], by rw [h2]; exact hr, by rw [h2]; exact he, ?_,
    by decide, by decide⟩
  intro evs
  rw [h2, taskRun_terminal _ (by simp [terminalStatus]) evs]

/-- C1 witness: the cancellation theorem applied to a concrete running
task. -/
theorem c1_witness :
    runningTask.status = .running
    ∧ ((taskStep (taskStep runningTask .cancelReq) .checkpoint).status
        = .cancelled
      ∧ (taskStep (taskStep runningTask .cancelReq) .checkpoint).result = none
      ∧ (taskStep (taskStep runningTask .cancelReq) .checkpoint).error = none
      ∧ (∀ evs,
          (taskRun (taskStep (taskStep runningTask .cancelReq) .checkpoint)
            evs).status = .cancelled)
      ∧ TStatus.cancelled ≠ TStatus.failed
      ∧ TStatus.cancelled ≠ TStatus.completed) :=
  ⟨rfl, c1_cancellation runningTask rfl rfl rfl⟩

/-! ## Claim C2 -/

/-- C2 counterexample: a `dayslice` call whose result contains the same path
twice (one file at 10:03 matches both target minutes 0 and 5 within a fuzz
of 5), and a `cron_image_filter` call whose result is neither
lexicographically sorted nor duplicate-free. -/
theorem c2_counterexample :
    dayslice [(0, [(7, 36180)])] (some [10]) [0, 5] 5 = [7, 7]
    ∧ ¬ (dayslice [(0, [(7, 36180)])] (some [10]) [0, 5] 5).Nodup
    ∧ cron_image_filter [(0, [(9, 36000), (1, 36060)])] twoFireTrigger 5
        = [9, 1, 9]
    ∧ ¬ List.Sorted (· ≤ ·)
        (cron_image_filter [(0, [(9, 36000), (1, 36060)])] twoFireTrigger 5)
    ∧ ¬ (cron_image_filter [(0, [(9, 36000), (1, 36060)])]
        twoFireTrigger 5).Nodup := by
  decide

/-- C2 (amended): the SelectionResult of dayslice is sorted ascending by
path (though it may contain duplicate paths, and cron_image_filter's result
is ordered by day and fire time rather than by path). -/
theorem c2_dayslice_sorted {α : Type} [LinearOrder α] (fileindex : ImageIndex α)
    (hourlist : Option (List Int)) (minutelist : List Int) (fuzzy : Int) :
    List.Sorted (· ≤ ·) (dayslice fileindex hourlist minutelist fuzzy) :=
  List.sorted_insertionSort _ _

/-! ## Claim C3 -/

/-- C3: `find_nearest_dt` does not match a file timestamped one minute
before the fire instant even though the absolute difference (60 seconds) is
well within the five-minute tolerance — `(x - target).seconds` of the
negative one-minute timedelta is 86340, not 60.  The target is noon
(43200 s) and the candidate 11:59:00 (43140 s) of the same day. -/
theorem c3_before_fire_not_matched :
    find_nearest_dt 43200 [43140] 5 = none
    ∧ |(43140 : Int) - 43200| ≤ 5 * 60 := by
  decide

/-! ## Claim C5 -/

/-- C5 counterexample: with a non-empty index, an empty minutelist does not
give an empty result — the source replaces a falsy minutelist by the
default `[0]`, so the 10:00 file is selected. -/
theorem c5_counterexample :
    dayslice [(0, [(7, 36000)])] (some [10]) ([] : List Int) 5 = [7]
    ∧ [7] ≠ ([] : List Nat) := by
  decide

/-- C5 (amended): an empty hourlist yields an empty SelectionResult and no
error; an empty minutelist is replaced by the default `[0]`, so the call
behaves exactly like `minutelist = [0]` (and raises no error) rather than
returning an empty result. -/
theorem c5_empty_lists {α : Type} [LinearOrder α] :
    (∀ (idx : ImageIndex α) (ml : List Int) (fz : Int),
        dayslice idx (some []) ml fz = [])
    ∧ (∀ (idx : ImageIndex α) (hl : Option (List Int)) (fz : Int),
        dayslice idx hl [] fz = dayslice idx hl [0] fz) := by
  constructor
  · intro idx ml fz
    show List.insertionSort (· ≤ ·)
      (List.foldl (fun acc df => acc ++ daysliceDay df.2
        (List.insertionSort (· ≤ ·) [])
        (List.insertionSort (· ≤ ·) (if ml.isEmpty then [0] else ml)) fz)
        [] idx) = []
    rw [show List.insertionSort (α := Int) (· ≤ ·) [] = [] from rfl]
    rw [foldl_daysliceDay_nil_hours _ fz idx []]
    rfl
  · intro idx hl fz
    rfl

/-! ## Claim C10 -/

/-- C10: after any dayslice call with a provided (non-None) hourlist and a
non-empty minutelist, the caller's hourlist and minutelist objects have been
sorted ascending in place (same elements, now sorted), while the fileindex
argument is unchanged. -/
theorem c10_dayslice_effects {α : Type} [LinearOrder α] (idx : ImageIndex α)
    (hl ml : List Int) (fz : Int) (h : ml ≠ []) :
    (dayslice_full idx (some hl) ml fz).hourlistAfter
      = some (List.insertionSort (· ≤ ·) hl)
    ∧ List.Sorted (· ≤ ·) (List.insertionSort (· ≤ ·) hl)
    ∧ (List.insertionSort (· ≤ ·) hl).Perm hl
    ∧ (dayslice_full idx (some hl) ml fz).minutelistAfter
      = List.insertionSort (· ≤ ·) ml
    ∧ List.Sorted (· ≤ ·) ((dayslice_full idx (some hl) ml fz).minutelistAfter)
    ∧ ((dayslice_full idx (some hl) ml fz).minutelistAfter).Perm ml
    ∧ (dayslice_full idx (some hl) ml fz).fileindexAfter = idx := by
  cases ml with
  | nil => exact absurd rfl h
  | cons m ms =>
    refine ⟨rfl, List.sorted_insertionSort _ _, List.perm_insertionSort _ _,
      rfl, ?_, ?_, rfl⟩
    · show List.Sorted (· ≤ ·) (List.insertionSort (· ≤ ·) (m :: ms))
      exact List.sorted_insertionSort _ _
    · show (List.insertionSort (· ≤ ·) (m :: ms)).Perm (m :: ms)
      exact List.perm_insertionSort _ _

/-- C10 witness: the frame theorem applied at a concrete index and concrete
unsorted lists. -/
theorem c10_witness :
    ([3, 1] : List Int) ≠ []
    ∧ ((dayslice_full ([] : ImageIndex Nat) (some [2, 1]) [3, 1] 5).hourlistAfter
        = some (List.insertionSort (· ≤ ·) [2, 1])
      ∧ List.Sorted (· ≤ ·) (List.insertionSort (· ≤ ·) ([2, 1] : List Int))
      ∧ (List.insertionSort (· ≤ ·) ([2, 1] : List Int)).Perm [2, 1]
      ∧ (dayslice_full ([] : ImageIndex Nat) (some [2, 1]) [3, 1] 5).minutelistAfter
        = List.insertionSort (· ≤ ·) [3, 1]
      ∧ List.Sorted (· ≤ ·)
          ((dayslice_full ([] : ImageIndex Nat) (some [2, 1]) [3, 1] 5).minutelistAfter)
      ∧ ((dayslice_full ([] : ImageIndex Nat) (some [2, 1]) [3, 1] 5).minutelistAfter).Perm
          [3, 1]
      ∧ (dayslice_full ([] : ImageIndex Nat) (some [2, 1]) [3, 1] 5).fileindexAfter
        = []) :=
  ⟨by decide, c10_dayslice_effects [] [2, 1] [3, 1] 5 (by decide)⟩

/-! ## Claim C6 -/

/-- C6: if the transform raises on some item (here: the first failing item,
after a prefix of successes), the whole executor run aborts with an
exception of the original exception's type whose message is the full
formatted stack trace, and the wrapping background task ends with status
"failed" and an error text containing the original exception's message. -/
theorem c6_failure_propagation {A B : Type} (fn : A → Except PyExc B)
    (pre post : List A) (a : A) (e : PyExc)
    (hpre : ∀ x ∈ pre, ∃ b, fn x = .ok b) (ha : fn a = .error e) :
    executor_run fn (pre ++ a :: post)
      = .error { ty := e.ty, msg := format_exc e }
    ∧ (task_run fn (pre ++ a :: post)).status = "failed"
    ∧ ∃ s, (task_run fn (pre ++ a :: post)).error = some s
        ∧ strContains s e.msg := by
  have hexec : executor_run fn (pre ++ a :: post)
      = .error { ty := e.ty, msg := format_exc e } := by
    induction pre with
    | nil =>
      show executor_run fn (a :: post) = _
      simp [executor_run, wrapped, ha]
    | cons x xs ih =>
      obtain ⟨b, hb⟩ := hpre x (List.mem_cons_self x xs)
      have ih2 := ih (fun y hy => hpre y (List.mem_cons_of_mem x hy))
      show executor_run fn (x :: (xs ++ a :: post)) = _
      simp [executor_run, wrapped, hb, ih2]
  refine ⟨hexec, ?_, ?_⟩
  · simp [task_run, hexec]
  · refine ⟨format_exc { ty := e.ty, msg := format_exc e }, ?_, ?_⟩
    · simp [task_run, hexec]
    · refine ⟨("Traceback (most recent call last):\n" ++ e.ty ++ ": ")
          ++ ("Traceback (most recent call last):\n" ++ e.ty ++ ": "),
        "\n" ++ "\n", ?_⟩
      simp only [format_exc, str_append_assoc]

/-- C6 witness: the failure-propagation theorem applied to a concrete
transform that succeeds on item 1, raises ValueError("boom") on item 2, and
never reaches item 3. -/
theorem c6_witness :
    (∀ x ∈ [1], ∃ b, boomTransform x = .ok b)
    ∧ boomTransform 2 = .error boomExc
    ∧ (executor_run boomTransform ([1] ++ 2 :: [3])
        = .error { ty := boomExc.ty, msg := format_exc boomExc }
      ∧ (task_run boomTransform ([1] ++ 2 :: [3])).status = "failed"
      ∧ ∃ s, (task_run boomTransform ([1] ++ 2 :: [3])).error = some s
          ∧ strContains s boomExc.msg) :=
  ⟨fun x hx => by
      simp only [List.mem_singleton] at hx
      subst hx
      exact ⟨1, rfl⟩,
    rfl,
    c6_failure_propagation boomTransform [1] [3] 2 boomExc
      (fun x hx => by
        simp only [List.mem_singleton] at hx
        subst hx
        exact ⟨1, rfl⟩)
      rfl⟩

/-! ## Claim C4 -/

/-- Full behaviour of Python's left-to-right minimum scan: either the seed
stays the minimum (and is no larger than every scanned key), or the result
is the first list element that strictly beats the seed and every element
before it, and is no larger than every element after it. -/
theorem pyMinByAux_spec {β : Type} (key : β → Int) :
    ∀ (ps : List β) (best : β),
      (pyMinByAux key best ps = best ∧ ∀ x ∈ ps, key best ≤ key x)
      ∨ (∃ l₁ x l₂, ps = l₁ ++ x :: l₂
          ∧ pyMinByAux key best ps = x
          ∧ key x < key best
          ∧ (∀ y ∈ l₁, key x < key y)
          ∧ (∀ y ∈ l₂, key x ≤ key y)) := by
  intro ps
  induction ps with
  | nil => intro best; left; exact ⟨rfl, by simp⟩
  | cons p ps ih =>
    intro best
    by_cases hc : key p < key best
    · have hstep : pyMinByAux key best (p :: ps) = pyMinByAux key p ps := by
        simp [pyMinByAux, hc]
      rcases ih p with ⟨hres, hall⟩ | ⟨l₁, x, l₂, hsplit, hres, hlt, hl₁, hl₂⟩
      · right
        exact ⟨[], p, ps, by simp, by rw [hstep, hres], hc, by simp, hall⟩
      · right
        refine ⟨p :: l₁, x, l₂, by rw [hsplit]; rfl, by rw [hstep, hres],
          lt_trans hlt hc, ?_, hl₂⟩
        intro y hy
        rcases List.mem_cons.mp hy with h | h
        · subst h; exact hlt
        · exact hl₁ y h
    · have hstep : pyMinByAux key best (p :: ps) = pyMinByAux key best ps := by
        simp [pyMinByAux, hc]
      rcases ih best with ⟨hres, hall⟩ | ⟨l₁, x, l₂, hsplit, hres, hlt, hl₁, hl₂⟩
      · left
        refine ⟨by rw [hstep, hres], ?_⟩
        intro y hy
        rcases List.mem_cons.mp hy with h | h
        · subst h; exact not_lt.mp hc
        · exact hall y h
      · right
        refine ⟨p :: l₁, x, l₂, by rw [hsplit]; rfl, by rw [hstep, hres], hlt,
          ?_, hl₂⟩
        intro y hy
        rcases List.mem_cons.mp hy with h | h
        · subst h; exact lt_of_lt_of_le hlt (not_lt.mp hc)
        · exact hl₁ y h

/-- Entry j of the enumeration starting at n is entry j of the list, tagged
with index n + j. -/
theorem enumFrom_get? (ar : List Int) :
    ∀ (n j : Nat),
      (enumFrom n ar).get? j = (ar.get? j).map (fun x => (n + j, x)) := by
  induction ar with
  | nil => intro n j; cases j <;> rfl
  | cons a as ih =>
    intro n j
    cases j with
    | zero => rfl
    | succ k =>
      show (enumFrom (n + 1) as).get? k
        = (as.get? k).map (fun x => (n + (k + 1), x))
      rw [ih (n + 1) k]
      simp only [show n + 1 + k = n + (k + 1) from by omega]

/-- Every member of an enumeration carries an in-range index pointing back
at its list entry. -/
theorem mem_enumFrom (ar : List Int) :
    ∀ (n : Nat) (q : Nat × Int), q ∈ enumFrom n ar →
      n ≤ q.1 ∧ ar.get? (q.1 - n) = some q.2 := by
  induction ar with
  | nil => intro n q hq; cases hq
  | cons a as ih =>
    intro n q hq
    rcases List.mem_cons.mp hq with h | h
    · subst h
      exact ⟨le_refl n, by simp⟩
    · obtain ⟨h1, h2⟩ := ih (n + 1) q h
      refine ⟨by omega, ?_⟩
      have hj : q.1 - n = (q.1 - (n + 1)) + 1 := by omega
      rw [hj]
      simpa using h2

/-- Characterization of `find_nearest` on a non-empty array: there is a
unique scanned minimum m at index i — no larger in distance than any
element, strictly smaller in distance than every earlier element — and the
function returns `(m, i)` exactly when m is within tolerance. -/
theorem find_nearest_char (array : List Int) (v : Int) (har : array ≠ []) :
    ∃ m i, array.get? i = some m
      ∧ (∀ y ∈ array, |m - v| ≤ |y - v|)
      ∧ (∀ j y, j < i → array.get? j = some y → |m - v| < |y - v|)
      ∧ ∀ tol, find_nearest array v tol
          = if |v - m| ≤ tol then some (m, i) else none := by
  cases array with
  | nil => exact absurd rfl har
  | cons a as =>
    rcases pyMinByAux_spec (fun q => |q.2 - v|) (enumFrom 1 as) (0, a) with
      ⟨hres, hall⟩ | ⟨l₁, x, l₂, hsplit, hres, hlt, hl₁, hl₂⟩
    · refine ⟨a, 0, rfl, ?_, ?_, ?_⟩
      · intro y hy
        rcases List.mem_cons.mp hy with h | h
        · subst h; exact le_refl _
        · obtain ⟨j, hj⟩ := List.mem_iff_get?.mp h
          have hmem : (1 + j, y) ∈ enumFrom 1 as :=
            List.get?_mem (by rw [enumFrom_get?, hj]; rfl)
          simpa using hall _ hmem
      · intro j y hj hy; omega
      · intro tol
        show (if |v - (pyMinByAux (fun q => |q.2 - v|) (0, a)
            (enumFrom 1 as)).2| ≤ tol then
          some ((pyMinByAux (fun q => |q.2 - v|) (0, a) (enumFrom 1 as)).2,
            (pyMinByAux (fun q => |q.2 - v|) (0, a) (enumFrom 1 as)).1)
          else none) = _
        rw [hres]
    · have hx1 : (enumFrom 1 as).get? l₁.length = some x := by
        rw [hsplit, List.get?_append_right (le_refl _)]
        simp
      have hx2 : (as.get? l₁.length).map (fun y => (1 + l₁.length, y))
          = some x := by
        rw [← enumFrom_get?]; exact hx1
      obtain ⟨y0, hy0, hxy⟩ := Option.map_eq_some'.mp hx2
      have hi : x.1 = 1 + l₁.length := by rw [← hxy]
      have hm : x.2 = y0 := by rw [← hxy]
      refine ⟨x.2, x.1, ?_, ?_, ?_, ?_⟩
      · rw [hi, hm]
        show (a :: as).get? (1 + l₁.length) = some y0
        rw [show 1 + l₁.length = l₁.length + 1 from by omega]
        simpa using hy0
      · intro y hy
        rcases List.mem_cons.mp hy with h | h
        · subst h; exact le_of_lt hlt
        · obtain ⟨j, hj⟩ := List.mem_iff_get?.mp h
          have hmem : (1 + j, y) ∈ enumFrom 1 as :=
            List.get?_mem (by rw [enumFrom_get?, hj]; rfl)
          rw [hsplit] at hmem
          rcases List.mem_append.mp hmem with hmem1 | hmem2
          · exact le_of_lt (hl₁ _ hmem1)
          · rcases List.mem_cons.mp hmem2 with heq | hmem3
            · rw [show y = x.2 from by rw [← heq]]
            · exact hl₂ _ hmem3
      · intro j y hj hy
        cases j with
        | zero =>
          have hya : a = y := by simpa using hy
          subst hya
          exact hlt
        | succ k =>
          have hk : k < l₁.length := by omega
          have hyk : as.get? k = some y := by simpa using hy
          have hqmem : (1 + k, y) ∈ l₁ := by
            have hq : (enumFrom 1 as).get? k = some (1 + k, y) := by
              rw [enumFrom_get?, hyk]; rfl
            rw [hsplit] at hq
            rw [List.get?_append hk] at hq
            exact List.get?_mem hq
          exact hl₁ _ hqmem
      · intro tol
        show (if |v - (pyMinByAux (fun q => |q.2 - v|) (0, a)
            (enumFrom 1 as)).2| ≤ tol then
          some ((pyMinByAux (fun q => |q.2 - v|) (0, a) (enumFrom 1 as)).2,
            (pyMinByAux (fun q => |q.2 - v|) (0, a) (enumFrom 1 as)).1)
          else none) = _
        rw [hres]

/-- C4: for every array, target value and tolerance at least 0,
`find_nearest` returns none iff every element is farther than the tolerance
(vacuously on the empty array); otherwise it returns an element of minimal
absolute distance together with its index, the earliest such element on
ties; and `find_nearest [5, 15] 10 5 = (5, 0)`. -/
theorem c4_find_nearest (array : List Int) (value tolerance : Int)
    (htol : 0 ≤ tolerance) :
    (find_nearest array value tolerance = none ↔
      ∀ x ∈ array, tolerance < |x - value|)
    ∧ (∀ m i, find_nearest array value tolerance = some (m, i) →
        array.get? i = some m
        ∧ |m - value| ≤ tolerance
        ∧ (∀ x ∈ array, |m - value| ≤ |x - value|)
        ∧ (∀ j y, j < i → array.get? j = some y →
            |m - value| < |y - value|))
    ∧ find_nearest [5, 15] 10 5 = some (5, 0) := by
  by_cases har : array = []
  · subst har
    refine ⟨?_, ?_, by decide⟩
    · simp [find_nearest]
    · intro m i h
      simp [find_nearest] at h
  · obtain ⟨m, i, hget, hmin, hearly, hfn⟩ :=
      find_nearest_char array value har
    have hmem : m ∈ array := List.get?_mem hget
    refine ⟨?_, ?_, by decide⟩
    · rw [hfn tolerance]
      constructor
      · intro hnone x hx
        by_cases hc : |value - m| ≤ tolerance
        · rw [if_pos hc] at hnone; cases hnone
        · calc tolerance < |value - m| := not_le.mp hc
            _ = |m - value| := abs_sub_comm value m
            _ ≤ |x - value| := hmin x hx
      · intro hall
        rw [if_neg]
        intro hc
        have h1 := hall m hmem
        rw [abs_sub_comm] at h1
        exact absurd hc (not_le.mpr h1)
    · intro m' i' hsome
      rw [hfn tolerance] at hsome
      by_cases hc : |value - m| ≤ tolerance
      · rw [if_pos hc] at hsome
        have hpair : m = m' ∧ i = i' := by
          have := Option.some.inj hsome
          exact ⟨congrArg Prod.fst this, congrArg Prod.snd this⟩
        obtain ⟨hm', hi'⟩ := hpair
        subst hm'
        subst hi'
        exact ⟨hget, by rwa [abs_sub_comm] at hc, hmin, hearly⟩
      · rw [if_neg hc] at hsome
        cases hsome

/-- C4 witness: the theorem applied at the tie-break example of the spec,
with tolerance 5 at least 0. -/
theorem c4_witness :
    (0 : Int) ≤ 5
    ∧ ((find_nearest [5, 15] 10 5 = none ↔
        ∀ x ∈ [(5 : Int), 15], 5 < |x - 10|)
      ∧ (∀ m i, find_nearest [5, 15] 10 5 = some (m, i) →
          ([(5 : Int), 15]).get? i = some m
          ∧ |m - 10| ≤ 5
          ∧ (∀ x ∈ [(5 : Int), 15], |m - 10| ≤ |x - 10|)
          ∧ (∀ j y, j < i → ([(5 : Int), 15]).get? j = some y →
              |m - 10| < |y - 10|))
      ∧ find_nearest [5, 15] 10 5 = some (5, 0)) :=
  ⟨by decide, c4_find_nearest [5, 15] 10 5 (by decide)⟩

/-! ## Claim C7 -/

/-- On a single-day index whose file list is already sorted by
`(timestamp, path)`, `cron_image_filter` reduces to matching each fire time
of that day against the file timestamps. -/
theorem cron_image_filter_singleton {α : Type} [LinearOrder α] (d : Nat)
    (files : List (α × Int)) (trigger : Int → Int) (fuzzy : Int)
    (hs : List.Sorted tsPathLe files) :
    cron_image_filter [(d, files)] trigger fuzzy =
      if (trigger ((d : Int) * 86400)).ediv 86400
          = ((d : Int) * 86400).ediv 86400 then
        ((get_fire_times trigger d).map
            (fun ft => find_nearest_dt ft
              (files.map (fun pt => pt.2)) fuzzy)).foldl
          (fun imgs k =>
            match k with
            | some key => imgs ++ reverseDaySetGet files key
            | none => imgs)
          []
      else [] := by
  show (if (trigger ((d : Int) * 86400)).ediv 86400
          = ((d : Int) * 86400).ediv 86400 then
      ((get_fire_times trigger d).map
          (fun ft => find_nearest_dt ft
            ((List.insertionSort tsPathLe files).map (fun pt => pt.2))
            fuzzy)).foldl
        (fun imgs k =>
          match k with
          | some key => imgs ++ reverseDaySetGet
              (List.insertionSort tsPathLe files) key
          | none => imgs)
        []
    else []) = _
  rw [hs.insertionSort_eq]

/-- The one-image-per-minute day is sorted by `(timestamp, path)`. -/
theorem fullDayFiles_sorted :
    List.Sorted tsPathLe
      ((List.range 1440).map (fun i => ((i : Nat), (i : Int) * 60))) := by
  rw [List.Sorted, List.pairwise_map]
  refine List.Pairwise.imp ?_ (List.pairwise_lt_range 1440)
  intro a b hab
  left
  simp only
  omega

set_option maxHeartbeats 4000000 in
/-- C7: on an index with one image per minute for a full day and an
hourly-on-the-hour schedule with fuzzy 5, `cron_image_filter` returns 25
paths, not 24: each of the 24 in-day fire instants matches its on-the-hour
file, and the fire instant that overflows into the next day matches the
day's 00:00 file again (its timedelta is exactly minus one day, whose
Python `seconds` attribute is 0), so the minute-0 path appears twice. -/
theorem c7_overflow_fire_matches :
    cron_image_filter fullDayIndex hourlyTrigger 5
      = (List.range 24).map (fun h => h * 60) ++ [0]
    ∧ ((List.range 24).map (fun h => h * 60) ++ [0]).length = 25
    ∧ ((List.range 24).map (fun h => h * 60) ++ [0]).count 0 = 2 := by
  refine ⟨?_, by decide, by decide⟩
  have h := cron_image_filter_singleton 0
    ((List.range 1440).map (fun i => ((i : Nat), (i : Int) * 60)))
    hourlyTrigger 5 fullDayFiles_sorted
  rw [show fullDayIndex
      = [(0, (List.range 1440).map (fun i => ((i : Nat), (i : Int) * 60)))]
    from rfl, h]
  rfl

/-! ## Claims C8 and C9: the indexing lemma chain -/

/-- Unfolding of `lookupIdx` on a cons cell. -/
theorem lookupIdx_cons {P : Type} [DecidableEq P]
    (e : (Nat × Nat × Nat) × List (P × PyDatetime)) (rest : FileIndex P)
    (d : Nat × Nat × Nat) (p : P) :
    lookupIdx (e :: rest) d p
      = if e.1 = d then lookupDay e.2 p else lookupIdx rest d p := by
  by_cases h : e.1 = d <;> simp [lookupIdx, List.find?_cons, h]

/-- Looking up a path after a dict write: the written path now maps to the
written value, every other path is untouched. -/
theorem lookupDay_insertDay {P : Type} [DecidableEq P] (p₀ : P)
    (t : PyDatetime) (p : P) :
    ∀ dfs : List (P × PyDatetime),
      lookupDay (insertDay dfs p₀ t) p
        = if p = p₀ then some t else lookupDay dfs p := by
  intro dfs
  induction dfs with
  | nil =>
    by_cases h : p = p₀
    · subst h; simp [insertDay, lookupDay, List.find?]
    · have h2 : ¬ p₀ = p := fun hq => h hq.symm
      simp [insertDay, lookupDay, List.find?, h, h2]
  | cons e rest ih =>
    by_cases he : e.1 = p₀
    · by_cases hp : p = p₀
      · subst hp
        simp [insertDay, he, lookupDay, List.find?_cons]
      · have hp2 : ¬ p₀ = p := fun hq => hp hq.symm
        have hep : ¬ e.1 = p := by rw [he]; exact hp2
        simp [insertDay, he, lookupDay, List.find?_cons, hp, hp2, hep]
    · by_cases hep : e.1 = p
      · have hp : ¬ p = p₀ := by rw [← hep]; exact fun hq => he hq
        simp [insertDay, he, lookupDay, List.find?_cons, hep, hp]
      · simp only [insertDay, if_neg he]
        rw [show lookupDay (e :: insertDay rest p₀ t) p
            = lookupDay (insertDay rest p₀ t) p from by
          simp [lookupDay, List.find?_cons, hep]]
        rw [show lookupDay (e :: rest) p = lookupDay rest p from by
          simp [lookupDay, List.find?_cons, hep]]
        exact ih

/-- Looking up after `days[day][f] = timestamp`: only the written (day,
path) cell changes. -/
theorem lookupIdx_insertIndex {P : Type} [DecidableEq P]
    (d₀ : Nat × Nat × Nat) (p₀ : P) (t : PyDatetime) (d : Nat × Nat × Nat)
    (p : P) :
    ∀ idx : FileIndex P,
      lookupIdx (insertIndex idx d₀ p₀ t) d p
        = if d = d₀ ∧ p = p₀ then some t else lookupIdx idx d p := by
  intro idx
  induction idx with
  | nil =>
    by_cases hd : d = d₀
    · subst hd
      by_cases hp : p = p₀
      · subst hp
        simp [insertIndex, lookupIdx, List.find?, lookupDay]
      · have hp2 : ¬ p₀ = p := fun hq => hp hq.symm
        simp [insertIndex, lookupIdx, List.find?, lookupDay, hp, hp2]
    · have hd' : ¬ d₀ = d := fun hq => hd hq.symm
      simp [insertIndex, lookupIdx, List.find?, hd', hd]
  | cons e rest ih =>
    by_cases he : e.1 = d₀
    · rw [show insertIndex (e :: rest) d₀ p₀ t
          = (d₀, insertDay e.2 p₀ t) :: rest from by simp [insertIndex, he]]
      rw [lookupIdx_cons, lookupIdx_cons]
      by_cases hd : d = d₀
      · subst hd
        rw [if_pos rfl, if_pos he, lookupDay_insertDay]
        by_cases hp : p = p₀ <;> simp [hp]
      · have hd1 : ¬ (d₀ : Nat × Nat × Nat) = d := fun hq => hd hq.symm
        have hd2 : ¬ e.1 = d := by rw [he]; exact hd1
        simp [hd1, hd2, hd]
    · rw [show insertIndex (e :: rest) d₀ p₀ t
          = e :: insertIndex rest d₀ p₀ t from by simp [insertIndex, he]]
      rw [lookupIdx_cons, lookupIdx_cons]
      by_cases hed : e.1 = d
      · have hdd : ¬ d = d₀ := by rw [← hed]; exact fun hq => he hq
        simp [hed, hdd]
      · simp only [if_neg hed]
        exact ih

/-- Unfolding of `idealLookup` on a cons cell. -/
theorem idealLookup_cons {P : Type} [DecidableEq P] (f : P) (rest : List P)
    (pattern : P → Option MatchGroups) (d : Nat × Nat × Nat) (p : P) :
    idealLookup (f :: rest) pattern d p
      = if p = f then
          (pattern p).bind (fun g =>
            if dayKeyOf (toDatetime g) = d then some (toDatetime g) else none)
        else idealLookup rest pattern d p := by
  by_cases hpf : p = f
  · subst hpf
    simp [idealLookup, List.mem_cons]
  · simp [idealLookup, List.mem_cons, hpf]

/-- If the pattern rejects a path, the ideal lookup never finds it. -/
theorem idealLookup_none_pattern {P : Type} [DecidableEq P] (fs : List P)
    (pattern : P → Option MatchGroups) (d : Nat × Nat × Nat) (p : P)
    (h : pattern p = none) : idealLookup fs pattern d p = none := by
  unfold idealLookup
  split
  · rw [h]; rfl
  · rfl

/-- First-some choice with an empty fallback. -/
theorem optOr_none {X : Type} (o : Option X) : optOr o none = o := by
  cases o <;> rfl

/-- Lemma A: looking up in the index built by the `index_files` loop is the
ideal lookup over the processed files, falling back to the starting index. -/
theorem lookupIdx_index_files_from {P : Type} [DecidableEq P]
    (pattern : P → Option MatchGroups) (d : Nat × Nat × Nat) (p : P) :
    ∀ (fs : List P) (idx : FileIndex P),
      lookupIdx (index_files_from pattern fs idx) d p
        = optOr (idealLookup fs pattern d p) (lookupIdx idx d p) := by
  intro fs
  induction fs with
  | nil => intro idx; rfl
  | cons f rest ih =>
    intro idx
    rw [idealLookup_cons]
    cases hpat : pattern f with
    | none =>
      rw [show index_files_from pattern (f :: rest) idx
          = index_files_from pattern rest idx from by
        simp [index_files_from, hpat]]
      rw [ih idx]
      by_cases hpf : p = f
      · subst hpf
        rw [if_pos rfl, hpat, idealLookup_none_pattern rest pattern d p hpat]
        rfl
      · rw [if_neg hpf]
    | some g =>
      rw [show index_files_from pattern (f :: rest) idx
          = index_files_from pattern rest
              (insertIndex idx (dayKeyOf (toDatetime g)) f (toDatetime g))
        from by simp [index_files_from, hpat]]
      rw [ih, lookupIdx_insertIndex]
      by_cases hpf : p = f
      · subst hpf
        rw [if_pos rfl, hpat, Option.some_bind]
        by_cases hdk : dayKeyOf (toDatetime g) = d
        · rw [if_pos hdk, if_pos ⟨hdk.symm, rfl⟩]
          by_cases hfr : p ∈ rest
          · simp [idealLookup, hfr, hpat, hdk, optOr]
          · simp [idealLookup, hfr, optOr]
        · have hdk' : ¬ (d = dayKeyOf (toDatetime g) ∧ p = p) := by
            intro hq
            exact hdk hq.1.symm
          rw [if_neg hdk, if_neg hdk']
          by_cases hfr : p ∈ rest
          · simp [idealLookup, hfr, hpat, hdk, optOr]
          · simp [idealLookup, hfr, optOr]
      · have hnp : ¬ (d = dayKeyOf (toDatetime g) ∧ p = f) :=
          fun hq => hpf hq.2
        rw [if_neg hpf, if_neg hnp]

/-- Looking up in the built index is exactly the ideal lookup. -/
theorem lookupIdx_index_files {P : Type} [DecidableEq P] (files : List P)
    (pattern : P → Option MatchGroups) (d : Nat × Nat × Nat) (p : P) :
    lookupIdx (index_files files pattern) d p
      = idealLookup files pattern d p := by
  rw [index_files, lookupIdx_index_files_from]
  rw [show lookupIdx ([] : FileIndex P) d p = none from rfl]
  exact optOr_none _

/-- Lookup in a day dict restricted to a path set. -/
theorem lookupDay_filter {P : Type} [DecidableEq P] (S : List P) (p : P) :
    ∀ dfs : List (P × PyDatetime),
      lookupDay (dfs.filter (fun pt => decide (pt.1 ∈ S))) p
        = if p ∈ S then lookupDay dfs p else none := by
  intro dfs
  induction dfs with
  | nil => by_cases h : p ∈ S <;> simp [lookupDay, h]
  | cons e rest ih =>
    by_cases hmem : e.1 ∈ S
    · by_cases hep : e.1 = p
      · have hp : p ∈ S := hep ▸ hmem
        simp [List.filter_cons, hmem, lookupDay, List.find?_cons, hep, hp]
      · rw [show (e :: rest).filter (fun pt => decide (pt.1 ∈ S))
            = e :: rest.filter (fun pt => decide (pt.1 ∈ S)) from by
          simp [List.filter_cons, hmem]]
        rw [show lookupDay (e :: rest.filter (fun pt => decide (pt.1 ∈ S))) p
            = lookupDay (rest.filter (fun pt => decide (pt.1 ∈ S))) p from by
          simp [lookupDay, List.find?_cons, hep]]
        rw [show lookupDay (e :: rest) p = lookupDay rest p from by
          simp [lookupDay, List.find?_cons, hep]]
        exact ih
    · rw [show (e :: rest).filter (fun pt => decide (pt.1 ∈ S))
          = rest.filter (fun pt => decide (pt.1 ∈ S)) from by
        simp [List.filter_cons, hmem]]
      rw [ih]
      by_cases hp : p ∈ S
      · have hep : ¬ e.1 = p := fun hq => hmem (hq ▸ hp)
        rw [show lookupDay (e :: rest) p = lookupDay rest p from by
          simp [lookupDay, List.find?_cons, hep]]
      · rw [if_neg hp, if_neg hp]

/-- A lookup for a day key that is not among the index's day keys fails. -/
theorem lookupIdx_not_mem_dayKeys {P : Type} [DecidableEq P]
    (d : Nat × Nat × Nat) (p : P) :
    ∀ idx : FileIndex P, d ∉ dayKeys idx → lookupIdx idx d p = none := by
  intro idx
  induction idx with
  | nil => intro _; rfl
  | cons e rest ih =>
    intro hd
    have h1 : ¬ e.1 = d := fun hq => hd (by rw [← hq]; exact List.mem_map_of_mem _ (List.mem_cons_self e rest))
    rw [lookupIdx_cons, if_neg h1]
    exact ih (fun hq => hd (List.mem_cons_of_mem _ hq) |>.elim)

/-- If every entry of a day dict with a path in S has been filtered away,
then no path of S is found in it. -/
theorem lookupDay_none_of_filter_empty {P : Type} [DecidableEq P]
    (S : List P) (p : P) (dfs : List (P × PyDatetime))
    (hm : (dfs.filter (fun pt => decide (pt.1 ∈ S))).isEmpty = true)
    (hp : p ∈ S) : lookupDay dfs p = none := by
  rw [show lookupDay dfs p
      = if p ∈ S then lookupDay dfs p else none from by rw [if_pos hp]]
  rw [← lookupDay_filter]
  rw [List.isEmpty_iff.mp hm]
  by_cases h : p ∈ S <;> rfl

/-- Lemma C: filtering the cached index to a path set S, then looking up, is
the original lookup guarded by membership in S — provided day keys are
unique, as they are for any dict-built index. -/
theorem lookupIdx_filter_index {P : Type} [DecidableEq P] (S : List P)
    (d : Nat × Nat × Nat) (p : P) :
    ∀ idx : FileIndex P, (dayKeys idx).Nodup →
      lookupIdx (filter_index idx S) d p
        = if p ∈ S then lookupIdx idx d p else none := by
  intro idx
  induction idx with
  | nil =>
    intro _
    by_cases h : p ∈ S <;> simp [filter_index, lookupIdx, h]
  | cons e rest ih =>
    intro hnd
    have hnd2 : (dayKeys (e :: rest)) = e.1 :: dayKeys rest := rfl
    rw [hnd2] at hnd
    have hne : e.1 ∉ dayKeys rest := (List.nodup_cons.mp hnd).1
    have hnd' : (dayKeys rest).Nodup := (List.nodup_cons.mp hnd).2
    by_cases hm : (e.2.filter (fun pt => decide (pt.1 ∈ S))).isEmpty
    · rw [show filter_index (e :: rest) S = filter_index rest S from by
        simp [filter_index, List.filterMap_cons, hm]]
      rw [ih hnd', lookupIdx_cons]
      by_cases hd : e.1 = d
      · subst hd
        rw [if_pos rfl]
        rw [lookupIdx_not_mem_dayKeys _ p rest hne]
        by_cases hp : p ∈ S
        · rw [if_pos hp, if_pos hp, lookupDay_none_of_filter_empty S p e.2 hm hp]
        · rw [if_neg hp, if_neg hp]
      · rw [if_neg hd]
    · rw [show filter_index (e :: rest) S
          = (e.1, e.2.filter (fun pt => decide (pt.1 ∈ S)))
              :: filter_index rest S from by
        simp [filter_index, List.filterMap_cons, hm]]
      rw [lookupIdx_cons, lookupIdx_cons]
      by_cases hd : e.1 = d
      · rw [if_pos hd, if_pos hd, lookupDay_filter]
      · rw [if_neg hd, if_neg hd]
        exact ih hnd'

/-- The dict write `days[day][f] = t` never leaves an empty day. -/
theorem insertDay_ne_nil {P : Type} [DecidableEq P]
    (dfs : List (P × PyDatetime)) (p : P) (t : PyDatetime) :
    insertDay dfs p t ≠ [] := by
  cases dfs with
  | nil => simp [insertDay]
  | cons e rest =>
    by_cases h : e.1 = p <;> simp [insertDay, h]

/-- `insertIndex` keeps the no-empty-day invariant. -/
theorem insertIndex_ne_nil {P : Type} [DecidableEq P] (d : Nat × Nat × Nat)
    (p : P) (t : PyDatetime) :
    ∀ idx : FileIndex P, (∀ e ∈ idx, e.2 ≠ []) →
      ∀ e ∈ insertIndex idx d p t, e.2 ≠ [] := by
  intro idx
  induction idx with
  | nil =>
    intro _ e he
    rw [show insertIndex [] d p t = [(d, [(p, t)])] from rfl] at he
    rcases List.mem_cons.mp he with h | h
    · subst h; simp
    · cases h
  | cons e0 rest ih =>
    intro hinv e he
    by_cases h0 : e0.1 = d
    · rw [show insertIndex (e0 :: rest) d p t
          = (d, insertDay e0.2 p t) :: rest from by simp [insertIndex, h0]]
        at he
      rcases List.mem_cons.mp he with h | h
      · subst h; exact insertDay_ne_nil _ _ _
      · exact hinv e (List.mem_cons_of_mem _ h)
    · rw [show insertIndex (e0 :: rest) d p t
          = e0 :: insertIndex rest d p t from by simp [insertIndex, h0]]
        at he
      rcases List.mem_cons.mp he with h | h
      · subst h; exact hinv e (List.mem_cons_self _ _)
      · exact ih (fun x hx => hinv x (List.mem_cons_of_mem _ hx)) e h

/-- The built index has no empty day. -/
theorem index_files_from_ne_nil {P : Type} [DecidableEq P]
    (pattern : P → Option MatchGroups) :
    ∀ (fs : List P) (idx : FileIndex P), (∀ e ∈ idx, e.2 ≠ []) →
      ∀ e ∈ index_files_from pattern fs idx, e.2 ≠ [] := by
  intro fs
  induction fs with
  | nil => intro idx hinv e he; exact hinv e he
  | cons f rest ih =>
    intro idx hinv e he
    cases hpat : pattern f with
    | none =>
      rw [show index_files_from pattern (f :: rest) idx
          = index_files_from pattern rest idx from by
        simp [index_files_from, hpat]] at he
      exact ih idx hinv e he
    | some g =>
      rw [show index_files_from pattern (f :: rest) idx
          = index_files_from pattern rest
              (insertIndex idx (dayKeyOf (toDatetime g)) f (toDatetime g))
        from by simp [index_files_from, hpat]] at he
      exact ih _ (insertIndex_ne_nil _ _ _ idx hinv) e he

/-- The filtered index has no empty day either. -/
theorem filter_index_ne_nil {P : Type} [DecidableEq P] (idx : FileIndex P)
    (S : List P) : ∀ e ∈ filter_index idx S, e.2 ≠ [] := by
  intro e he
  obtain ⟨a, _, ha⟩ := List.mem_filterMap.mp he
  by_cases hm : (a.2.filter (fun pt => decide (pt.1 ∈ S))).isEmpty
  · simp [hm] at ha
  · simp only [if_neg hm] at ha
    have he2 := Option.some.inj ha
    intro hq
    rw [← he2] at hq
    have hq2 : a.2.filter (fun pt => decide (pt.1 ∈ S)) = [] := hq
    exact hm (by rw [hq2]; rfl)

/-- Day keys after a dict write: unchanged if the day existed, else the new
day is appended. -/
theorem dayKeys_insertIndex {P : Type} [DecidableEq P] (d : Nat × Nat × Nat)
    (p : P) (t : PyDatetime) :
    ∀ idx : FileIndex P,
      dayKeys (insertIndex idx d p t)
        = if d ∈ dayKeys idx then dayKeys idx else dayKeys idx ++ [d] := by
  intro idx
  induction idx with
  | nil => simp [insertIndex, dayKeys]
  | cons e rest ih =>
    by_cases h0 : e.1 = d
    · rw [show insertIndex (e :: rest) d p t
          = (d, insertDay e.2 p t) :: rest from by simp [insertIndex, h0]]
      have hmem : d ∈ dayKeys (e :: rest) := by
        rw [show dayKeys (e :: rest) = e.1 :: dayKeys rest from rfl, h0]
        exact List.mem_cons_self _ _
      rw [if_pos hmem]
      show d :: dayKeys rest = dayKeys (e :: rest)
      rw [show dayKeys (e :: rest) = e.1 :: dayKeys rest from rfl, h0]
    · rw [show insertIndex (e :: rest) d p t
          = e :: insertIndex rest d p t from by simp [insertIndex, h0]]
      have hs1 : dayKeys (e :: insertIndex rest d p t)
          = e.1 :: dayKeys (insertIndex rest d p t) := rfl
      have hs2 : dayKeys (e :: rest) = e.1 :: dayKeys rest := rfl
      rw [hs1, hs2, ih]
      by_cases hmem : d ∈ dayKeys rest
      · rw [if_pos hmem, if_pos (List.mem_cons_of_mem _ hmem)]
      · have hnm : d ∉ e.1 :: dayKeys rest := by
          intro hq
          rcases List.mem_cons.mp hq with h | h
          · exact h0 h.symm
          · exact hmem h
        rw [if_neg hmem, if_neg hnm]
        rfl

/-- The built index has pairwise-distinct day keys. -/
theorem index_files_from_dayKeys_nodup {P : Type} [DecidableEq P]
    (pattern : P → Option MatchGroups) :
    ∀ (fs : List P) (idx : FileIndex P), (dayKeys idx).Nodup →
      (dayKeys (index_files_from pattern fs idx)).Nodup := by
  intro fs
  induction fs with
  | nil => intro idx h; exact h
  | cons f rest ih =>
    intro idx hinv
    cases hpat : pattern f with
    | none =>
      rw [show index_files_from pattern (f :: rest) idx
          = index_files_from pattern rest idx from by
        simp [index_files_from, hpat]]
      exact ih idx hinv
    | some g =>
      rw [show index_files_from pattern (f :: rest) idx
          = index_files_from pattern rest
              (insertIndex idx (dayKeyOf (toDatetime g)) f (toDatetime g))
        from by simp [index_files_from, hpat]]
      refine ih _ ?_
      rw [dayKeys_insertIndex]
      by_cases hmem : dayKeyOf (toDatetime g) ∈ dayKeys idx
      · rw [if_pos hmem]; exact hinv
      · rw [if_neg hmem]
        rw [List.nodup_append]
        exact ⟨hinv, List.nodup_singleton _, by
          intro x hx hq
          rcases List.mem_cons.mp hq with h | h
          · subst h; exact hmem hx
          · cases h⟩

/-- A day key is present exactly when some path can be looked up under it
(for indexes without empty days). -/
theorem mem_dayKeys_iff_lookup {P : Type} [DecidableEq P]
    (idx : FileIndex P) (hne : ∀ e ∈ idx, e.2 ≠ []) (d : Nat × Nat × Nat) :
    d ∈ dayKeys idx ↔ ∃ p, lookupIdx idx d p ≠ none := by
  constructor
  · intro hd
    obtain ⟨e, he, he1⟩ := List.mem_map.mp hd
    have hfind : (idx.find? (fun e => decide (e.1 = d))).isSome := by
      rw [List.find?_isSome]
      exact ⟨e, he, by rw [he1]; simp⟩
    obtain ⟨e', he'⟩ := Option.isSome_iff_exists.mp hfind
    have he'mem : e' ∈ idx := List.mem_of_find?_eq_some he'
    have hne' : e'.2 ≠ [] := hne e' he'mem
    obtain ⟨pt, dfs', hdfs⟩ : ∃ pt dfs', e'.2 = pt :: dfs' := by
      cases hq : e'.2 with
      | nil => exact absurd hq hne'
      | cons pt dfs' => exact ⟨pt, dfs', rfl⟩
    refine ⟨pt.1, ?_⟩
    rw [show lookupIdx idx d pt.1 = lookupDay e'.2 pt.1 from by
      rw [lookupIdx, he']]
    rw [hdfs]
    simp [lookupDay, List.find?_cons]
  · intro ⟨p, hp⟩
    rw [lookupIdx] at hp
    cases hfind : idx.find? (fun e => decide (e.1 = d)) with
    | none => rw [hfind] at hp; exact absurd rfl hp
    | some e =>
      have hmem : e ∈ idx := List.mem_of_find?_eq_some hfind
      have hpred : e.1 = d := by
        have := List.find?_some hfind
        exact of_decide_eq_true this
      rw [← hpred]
      exact List.mem_map_of_mem _ hmem

/-- C8: filtering the index built from `files` down to a subset of its
paths gives, day by day and path by path, exactly the index obtained by
running `index_files` directly on the subset — same lookups and the same
day keys — without any rescan. -/
theorem c8_filter_index {P : Type} [DecidableEq P] (files S : List P)
    (pattern : P → Option MatchGroups) (hS : ∀ p ∈ S, p ∈ files) :
    (∀ (d : Nat × Nat × Nat) (p : P),
      lookupIdx (filter_index (index_files files pattern) S) d p
        = lookupIdx (index_files S pattern) d p)
    ∧ ∀ d : Nat × Nat × Nat,
        d ∈ dayKeys (filter_index (index_files files pattern) S)
          ↔ d ∈ dayKeys (index_files S pattern) := by
  have hlook : ∀ (d : Nat × Nat × Nat) (p : P),
      lookupIdx (filter_index (index_files files pattern) S) d p
        = lookupIdx (index_files S pattern) d p := by
    intro d p
    rw [lookupIdx_filter_index S d p (index_files files pattern)
      (index_files_from_dayKeys_nodup pattern files [] List.nodup_nil)]
    rw [lookupIdx_index_files, lookupIdx_index_files]
    by_cases hpS : p ∈ S
    · rw [if_pos hpS]
      rw [show idealLookup files pattern d p
          = idealLookup S pattern d p from by
        simp [idealLookup, hpS, hS p hpS]]
    · rw [if_neg hpS]
      rw [show idealLookup S pattern d p = none from by
        simp [idealLookup, hpS]]
  refine ⟨hlook, ?_⟩
  intro d
  rw [mem_dayKeys_iff_lookup _
    (filter_index_ne_nil (index_files files pattern) S) d]
  rw [mem_dayKeys_iff_lookup (index_files S pattern)
    (index_files_from_ne_nil pattern S [] (by intro e he; cases he)) d]
  constructor
  · intro ⟨p, hp⟩; exact ⟨p, by rw [← hlook d p]; exact hp⟩
  · intro ⟨p, hp⟩; exact ⟨p, by rw [hlook d p]; exact hp⟩

/-- C8 witness: the theorem applied to concrete files, pattern and subset,
at a concrete day key and path. -/
theorem c8_witness :
    (∀ p ∈ [0], p ∈ [0, 1, 2])
    ∧ lookupIdx (filter_index (index_files [0, 1, 2] witnessPattern) [0])
        (2024, 1, 15) 0
      = lookupIdx (index_files [0] witnessPattern) (2024, 1, 15) 0
    ∧ ((2024, 1, 15)
        ∈ dayKeys (filter_index (index_files [0, 1, 2] witnessPattern) [0])
      ↔ (2024, 1, 15) ∈ dayKeys (index_files [0] witnessPattern)) :=
  ⟨by decide,
    (c8_filter_index [0, 1, 2] [0] witnessPattern (by decide)).1
      (2024, 1, 15) 0,
    (c8_filter_index [0, 1, 2] [0] witnessPattern (by decide)).2
      (2024, 1, 15)⟩

/-- The matched-file counter counts exactly the files the pattern accepts. -/
theorem imagecount_eq_length_filter {P : Type}
    (pattern : P → Option MatchGroups) :
    ∀ files : List P,
      imagecount files pattern
        = (files.filter (fun x => (pattern x).isSome)).length := by
  intro files
  induction files with
  | nil => rfl
  | cons f rest ih =>
    cases hpat : pattern f with
    | none => simp [imagecount, hpat, List.filter_cons, ih]
    | some g => simp [imagecount, hpat, List.filter_cons, ih, Nat.add_comm]

/-- C9: a file whose basename fails the pattern is skipped without error —
absent from the index under every day key and not counted; `imagecount`
counts exactly the matching files; a matching file with an absent seconds
group gets second 0; and every matching file is stored, with its parsed
timestamp, under the day key of that timestamp's calendar date. -/
theorem c9_index_files {P : Type} [DecidableEq P] (files : List P)
    (pattern : P → Option MatchGroups) (f : P) :
    (pattern f = none →
      ∀ d : Nat × Nat × Nat, lookupIdx (index_files files pattern) d f = none)
    ∧ imagecount files pattern
        = (files.filter (fun x => (pattern x).isSome)).length
    ∧ (∀ g, pattern f = some g → g.seconds = none →
        (toDatetime g).second = 0)
    ∧ (∀ g, f ∈ files → pattern f = some g →
        lookupIdx (index_files files pattern) (dayKeyOf (toDatetime g)) f
          = some (toDatetime g)) := by
  refine ⟨?_, imagecount_eq_length_filter pattern files, ?_, ?_⟩
  · intro hpat d
    rw [lookupIdx_index_files]
    exact idealLookup_none_pattern files pattern d f hpat
  · intro g hg hsec
    simp [toDatetime, hsec]
  · intro g hf hg
    rw [lookupIdx_index_files]
    simp [idealLookup, hf, hg]

/-- C9 witness: the theorem applied to concrete files and pattern — the
non-matching path 1 is absent and uncounted, the seconds-less path 0 gets
second 0 and sits under day (2024, 1, 15). -/
theorem c9_witness :
    lookupIdx (index_files [0, 1, 2] witnessPattern) (2024, 1, 15) 1 = none
    ∧ imagecount [0, 1, 2] witnessPattern
        = (([0, 1, 2] : List Nat).filter
            (fun x => (witnessPattern x).isSome)).length
    ∧ (toDatetime g0).second = 0
    ∧ lookupIdx (index_files [0, 1, 2] witnessPattern)
        (dayKeyOf (toDatetime g0)) 0 = some (toDatetime g0) :=
  ⟨(c9_index_files [0, 1, 2] witnessPattern 1).1 (by decide) (2024, 1, 15),
    (c9_index_files [0, 1, 2] witnessPattern 1).2.1,
    (c9_index_files [0, 1, 2] witnessPattern 0).2.2.1 g0 (by decide) rfl,
    (c9_index_files [0, 1, 2] witnessPattern 0).2.2.2 g0 (by decide)
      (by decide)⟩

end PyLapse
